import Mathlib

/-!
Shallow embedding of the completion-request resolution core of
`main/lsp/requests/completion.cc` (method/constant completion for an LSP
server built on a static type checker), together with proofs of the
behavioural claims about it.

Modelling conventions:
* C++ `string_view` values are embedded as `List Char` (`Str`), with the
  lexicographic order `strLt` matching `operator<` on `string_view` and
  `strStartsWith` matching `absl::StartsWith`.
* `core::SymbolRef` is its numeric id (`Nat`); the symbol table
  (`core::GlobalState`) maps ids to the per-symbol data the completion
  core reads.  `core::NameRef` is embedded as a record of the fields the
  core consults (id, short name, name kind).
* `hasSimilarName` is an external oracle (defined outside this file's
  three sources); it is a parameter of the embedded global state.
* `UnorderedMap<NameRef, vector<SimilarMethod>>` is embedded as an
  association list with unique keys built in insertion order
  (`mapAppend`); `result[name].emplace_back(c)` is `mapAppend`.
* `fast_sort(v, lt)` (std::sort with a strict comparator) is embedded as
  insertion sort `sortBy le` with `le a b = !(lt b a)`; any std::sort
  output is sorted with respect to `lt` and the claims proved here do not
  depend on which permutation of tied elements is produced.
* `ENFORCE` failures are embedded as `Except.error`.
* The recursion of `ancestorsImpl` over the superclass chain and the
  `do/while` owner walk of `findSimilarConstantOrIdent` terminate in C++
  only because the hierarchy is acyclic (the `ENFORCE`'d linearization
  precondition); they are embedded with a fuel argument large enough
  (number of symbols + 1) that fuel is never exhausted on an acyclic
  hierarchy.
-/

/-- Characters of a C++ `string_view`. -/
abbrev Str := List Char

/-- A `core::SymbolRef`, identified by its numeric `_id`. -/
abbrev SymbolRef := Nat

/-- An opaque `core::TypeConstraint` handle (the core only copies it around). -/
abbrev Constraint := Nat

/-- The `core::UniqueNameKind` values the completion core distinguishes:
`MangleRename` is skipped during dedup, every other kind (e.g. overloads)
is kept. -/
inductive UniqueNameKind where
  | mangleRename
  | overload
deriving DecidableEq

/-- A `core::NameKind`: `UTF8`, `UNIQUE` (with its `uniqueNameKind`), or
`CONSTANT`. -/
inductive NameKind where
  | utf8
  | unique (uniqueNameKind : UniqueNameKind)
  | constant
deriving DecidableEq

/-- A `core::NameRef`, restricted to the fields read by the completion
core: its id, `shortName` and `kind` (with `unique.uniqueNameKind`). -/
structure Name where
  idx : Nat
  shortName : Str
  kind : NameKind
deriving DecidableEq

/-- The algebraic `core::Type` variants distinguished by the `typecase` in
`similarMethodsForReceiver`: `ClassType`, `AppliedType`, `AndType`,
`ProxyType`, plus `OrType` and an opaque/untyped catch-all, both of which
fall into the default `core::Type` branch. -/
inductive Ty where
  | classType (symbol : SymbolRef)
  | appliedType (klass : SymbolRef) (targs : List Ty)
  | andType (left right : Ty)
  | orType (left right : Ty)
  | proxy (underlying : Ty)
  | untyped

/-- `struct SimilarMethod`: depth in the ancestor hierarchy, the receiver
class the search started from, the matched method symbol, and the
"populated later" fields `receiverType` and `constr` (null until the
dispatch-chain walk stamps them).  The C++ `depth` is an `int` that starts
at `-1` and is incremented before first use, so it only ever holds values
`≥ 0` and is embedded as `Nat`. -/
structure SimilarMethod where
  depth : Nat
  receiver : SymbolRef
  method : SymbolRef
  receiverType : Option Ty := none
  constr : Option Constraint := none

/-- `UnorderedMap<NameRef, vector<SimilarMethod>>`, embedded as an
insertion-ordered association list with unique keys. -/
abbrev SimilarMethodsByName := List (Name × List SimilarMethod)

/-- The per-symbol data the completion core reads from the symbol table. -/
structure SymbolData where
  name : Name
  isMethod : Bool := false
  isStaticField : Bool := false
  isClassOrModule : Bool := false
  superClassRef : Option SymbolRef := none
  mixins : List SymbolRef := []
  members : List (Name × SymbolRef) := []
  owner : SymbolRef := 0
deriving DecidableEq

/-- Fallback symbol data for out-of-range ids (never consulted on
well-formed inputs). -/
def defaultSymbolData : SymbolData := { name := ⟨0, [], .utf8⟩ }

/-- The read-only view of `core::GlobalState` used by the completion core:
the symbol table plus the external `hasSimilarName` oracle (the oracle is
defined outside the embedded sources, so it is a parameter). -/
structure GlobalState where
  symbols : List SymbolData
  hasSimilarName : Name → Str → Bool

/-- `sym.data(gs)`. -/
def GlobalState.dataOf (gs : GlobalState) (sym : SymbolRef) : SymbolData :=
  gs.symbols.getD sym defaultSymbolData

/-- `ancestorsImpl`: append `sym` and its mixins to the accumulator, then
recurse into the superclass if it exists.  The fuel argument bounds the
superclass chain (see the module comment). -/
def ancestorsImpl (gs : GlobalState) : Nat → SymbolRef → List SymbolRef → List SymbolRef
  | 0, _, acc => acc
  | fuel + 1, sym, acc =>
    let acc := acc ++ sym :: (gs.dataOf sym).mixins
    match (gs.dataOf sym).superClassRef with
    | some sup => ancestorsImpl gs fuel sup acc
    | none => acc

/-- `ancestors(gs, receiver)`: the ancestor linearization, ordered from
most specific (the receiver itself) to least specific. -/
def ancestors (gs : GlobalState) (receiver : SymbolRef) : List SymbolRef :=
  ancestorsImpl gs (gs.symbols.length + 1) receiver []

/-- `result[name].emplace_back(c)`: append `c` to the list stored under
`name`, creating the entry (at the end, i.e. in insertion order) if it
does not exist. -/
def mapAppend (m : SimilarMethodsByName) (name : Name) (c : SimilarMethod) :
    SimilarMethodsByName :=
  match m with
  | [] => [(name, [c])]
  | (k, cs) :: rest =>
    if k = name then (k, cs ++ [c]) :: rest else (k, cs) :: mapAppend rest name c

/-- Map lookup (`m.find(name)`). -/
def lookupName (m : SimilarMethodsByName) (name : Name) : Option (List SimilarMethod) :=
  match m with
  | [] => none
  | (k, cs) :: rest => if k = name then some cs else lookupName rest name

/-- The keys of the map, in insertion order. -/
def mapKeys (m : SimilarMethodsByName) : List Name := m.map Prod.fst

/-- The member-scan body of `similarMethodsForClass`: skip non-methods,
keep members whose name is similar to the query prefix, and record them
as `SimilarMethod{depth, receiver, memberSymbol}` — note that the symbol
stored in the `receiver` field is the original receiver, not the ancestor
currently being scanned. -/
def considerMember (gs : GlobalState) (receiver : SymbolRef) (pre : Str) (depth : Nat)
    (result : SimilarMethodsByName) (member : Name × SymbolRef) : SimilarMethodsByName :=
  if (gs.dataOf member.2).isMethod then
    if gs.hasSimilarName member.1 pre then
      mapAppend result member.1 { depth := depth, receiver := receiver, method := member.2 }
    else result
  else result

/-- The ancestor loop of `similarMethodsForClass`, with the explicit depth
counter (`depth` is `0` when the head of the list is the receiver
itself). -/
def walkAncestors (gs : GlobalState) (receiver : SymbolRef) (pre : Str) :
    List SymbolRef → Nat → SimilarMethodsByName → SimilarMethodsByName
  | [], _, result => result
  | ancestor :: rest, depth, result =>
    walkAncestors gs receiver pre rest (depth + 1)
      ((gs.dataOf ancestor).members.foldl (considerMember gs receiver pre depth) result)

/-- `similarMethodsForClass(gs, receiver, prefix)`. -/
def similarMethodsForClass (gs : GlobalState) (receiver : SymbolRef) (pre : Str) :
    SimilarMethodsByName :=
  walkAncestors gs receiver pre (ancestors gs receiver) 0 []

/-- `mergeSimilarMethods(left, right)`: unconditionally intersect by name,
keeping — for every name present in both maps — the left candidates
followed by the right candidates.  The C++ loop emplaces into a fresh map
while iterating `left`; since `UnorderedMap` keys are unique this is the
same as filtering `left`'s entries and appending `right`'s list to each
kept entry. -/
def mergeSimilarMethods (left right : SimilarMethodsByName) : SimilarMethodsByName :=
  left.filterMap fun entry =>
    match lookupName right entry.1 with
    | some rightSimilarMethods => some (entry.1, entry.2 ++ rightSimilarMethods)
    | none => none

/-- `similarMethodsForReceiver(gs, receiver, prefix)`: the `typecase` over
the receiver type.  `OrType` and the opaque/untyped catch-all fall into
the default branch, which leaves the result map empty. -/
def similarMethodsForReceiver (gs : GlobalState) (receiver : Ty) (pre : Str) :
    SimilarMethodsByName :=
  match receiver with
  | .classType s => similarMethodsForClass gs s pre
  | .appliedType klass _ => similarMethodsForClass gs klass pre
  | .andType left right =>
    mergeSimilarMethods (similarMethodsForReceiver gs left pre)
      (similarMethodsForReceiver gs right pre)
  | .proxy underlying => similarMethodsForReceiver gs underlying pre
  | .orType _ _ => []
  | .untyped => []

/-- The secondary-kind tag of a `core::DispatchResult` ("either AND or
OR"); the completion core deliberately never reads it. -/
inductive SecondaryKind where
  | andKind
  | orKind
deriving DecidableEq

/-- A `core::DispatchResult`: the main component's receiver type and
constraint, the secondary link's kind, and the optional secondary chain. -/
inductive DispatchResult where
  | mk (mainReceiver : Ty) (mainConstr : Option Constraint)
      (secondaryKind : SecondaryKind) (secondary : Option DispatchResult)

/-- Stamping one candidate inside `allSimilarMethods`: the two `ENFORCE`s
("About to overwrite non-null receiverType/constr") become errors, then
`receiverType` and `constr` are assigned from the dispatch component. -/
def stampSimilarMethod (mainReceiver : Ty) (mainConstr : Option Constraint)
    (c : SimilarMethod) : Except String SimilarMethod :=
  match c.receiverType with
  | some _ => .error "About to overwrite non-null receiverType"
  | none =>
    match c.constr with
    | some _ => .error "About to overwrite non-null constr"
    | none => .ok { c with receiverType := some mainReceiver, constr := mainConstr }

/-- Stamp every candidate of one name's list, propagating the first
fault. -/
def stampList (mainReceiver : Ty) (mainConstr : Option Constraint) :
    List SimilarMethod → Except String (List SimilarMethod)
  | [] => .ok []
  | c :: cs =>
    match stampSimilarMethod mainReceiver mainConstr c with
    | .error e => .error e
    | .ok c' =>
      match stampList mainReceiver mainConstr cs with
      | .error e => .error e
      | .ok cs' => .ok (c' :: cs')

/-- The double loop in `allSimilarMethods` that stamps every candidate of
the freshly produced map. -/
def stampAll (mainReceiver : Ty) (mainConstr : Option Constraint) :
    SimilarMethodsByName → Except String SimilarMethodsByName
  | [] => .ok []
  | (name, cs) :: rest =>
    match stampList mainReceiver mainConstr cs with
    | .error e => .error e
    | .ok cs' =>
      match stampAll mainReceiver mainConstr rest with
      | .error e => .error e
      | .ok rest' => .ok ((name, cs') :: rest')

/-- `allSimilarMethods(gs, dispatchResult, prefix)`: compute the main
component's candidates, stamp them with the main receiver type and
constraint, then — if a secondary link exists — recurse and merge with
`mergeSimilarMethods`, ignoring `secondaryKind` ("Right now we completely
ignore the secondaryKind (either AND or OR), and always intersect."). -/
def allSimilarMethods (gs : GlobalState) (dr : DispatchResult) (pre : Str) :
    Except String SimilarMethodsByName :=
  match dr with
  | .mk mainReceiver mainConstr _secondaryKind secondary =>
    match stampAll mainReceiver mainConstr (similarMethodsForReceiver gs mainReceiver pre) with
    | .error e => .error e
    | .ok result =>
      match secondary with
      | none => .ok result
      | some s =>
        match allSimilarMethods gs s pre with
        | .error e => .error e
        | .ok rest => .ok (mergeSimilarMethods result rest)

/-- `absl::StartsWith(s, pre)`. -/
def strStartsWith : Str → Str → Bool
  | _, [] => true
  | [], _ :: _ => false
  | a :: as, b :: bs => a = b && strStartsWith as bs

/-- `operator<` on `string_view`: lexicographic comparison. -/
def strLt : Str → Str → Bool
  | [], [] => false
  | [], _ :: _ => true
  | _ :: _, [] => false
  | a :: as, b :: bs => if a < b then true else if b < a then false else strLt as bs

/-- The per-name comparator (`fast_sort` inside the loop over
`similarMethodsByName`): depth ascending, then method id ascending. -/
def perNameLt (left right : SimilarMethod) : Bool :=
  if left.depth ≠ right.depth then decide (left.depth < right.depth)
  else decide (left.method < right.method)

/-- The global ranking comparator (`fast_sort` over `deduped`): depth
ascending; then, among different short names, raw-prefix matches before
non-matches and otherwise alphabetical; method id as the final
tie-break. -/
def globalRankLt (gs : GlobalState) (pre : Str) (left right : SimilarMethod) : Bool :=
  if left.depth ≠ right.depth then decide (left.depth < right.depth)
  else
    let leftShortName := (gs.dataOf left.method).name.shortName
    let rightShortName := (gs.dataOf right.method).name.shortName
    if leftShortName ≠ rightShortName then
      if strStartsWith leftShortName pre && !strStartsWith rightShortName pre then true
      else if !strStartsWith leftShortName pre && strStartsWith rightShortName pre then false
      else strLt leftShortName rightShortName
    else decide (left.method < right.method)

/-- Insert `a` into an already-sorted list (helper for the embedding of
`fast_sort`). -/
def insertOrd (le : α → α → Bool) (a : α) : List α → List α
  | [] => [a]
  | b :: bs => if le a b then a :: b :: bs else b :: insertOrd le a bs

/-- Insertion sort; the embedding of `fast_sort(v, lt)` with
`le a b = !(lt b a)` (see the module comment). -/
def sortBy (le : α → α → Bool) : List α → List α
  | [] => []
  | a :: as => insertOrd le a (sortBy le as)

/-- The non-strict version of `perNameLt` used to run the sort. -/
def perNameLe (left right : SimilarMethod) : Bool := !(perNameLt right left)

/-- The non-strict version of `globalRankLt` used to run the sort. -/
def globalRankLe (gs : GlobalState) (pre : Str) (left right : SimilarMethod) : Bool :=
  !(globalRankLt gs pre right left)

/-- The first loop of the completion handler's send path: sort each name's
candidate list by depth, then method id. -/
def sortEachName (m : SimilarMethodsByName) : SimilarMethodsByName :=
  m.map fun entry => (entry.1, sortBy perNameLe entry.2)

/-- The dedup-skip test: `kind == NameKind::UNIQUE &&
unique.uniqueNameKind == UniqueNameKind::MangleRename`. -/
def isMangleRename (n : Name) : Bool :=
  match n.kind with
  | .unique .mangleRename => true
  | _ => false

/-- The dedup loop of the handler: skip internally-mangled rename names
entirely; for every other name take `similarMethods[0]`, the first
element of the per-name-sorted list (`head?`; the list is never empty, see
`lookupName_similarMethodsForReceiver_ne_nil`). -/
def dedupCandidates (m : SimilarMethodsByName) : List SimilarMethod :=
  m.filterMap fun entry => if isMangleRename entry.1 then none else entry.2.head?

/-- `CompletionItemKind` values assigned by `getCompletionItem`. -/
inductive CompletionItemKind where
  | method
  | constant
  | classItem
deriving DecidableEq

/-- The decimal digits of `n`, most significant first (fuel-based so the
kernel can evaluate it; `natDecimal` always supplies enough fuel). -/
def digitsAux : Nat → Nat → Str
  | 0, _ => []
  | fuel + 1, n =>
    if n < 10 then [Char.ofNat (48 + n)]
    else digitsAux fuel (n / 10) ++ [Char.ofNat (48 + n % 10)]

/-- The decimal rendering of a `Nat` (what `fmt` prints for `{:d}`). -/
def natDecimal (n : Nat) : Str := digitsAux (n + 1) n

/-- `fmt::format("{:06d}", sortIdx)`: decimal, zero-filled to a minimum
width of six characters (wider numbers are printed in full). -/
def sortTextFor (sortIdx : Nat) : Str :=
  let s := natDecimal sortIdx
  if s.length < 6 then List.replicate (6 - s.length) '0' ++ s else s

/-- The fields of a `CompletionItem` this core computes from the symbol
table alone.  `detail`, `insertText` and `documentation` are produced by
the external collaborators `methodDetail`, `methodSnippet`'s
argument-type rendering and `findDocumentation` and carry no claims, so
they are not embedded. -/
structure CompletionItem where
  label : Str
  sortText : Str
  kind : Option CompletionItemKind := none
deriving DecidableEq

/-- `LSPLoop::getCompletionItem` (the embedded fields): label from the
symbol's short name, `sortText` from the sort index, kind from the
symbol's flags (method, else static field, else class/module). -/
def getCompletionItem (gs : GlobalState) (what : SymbolRef) (sortIdx : Nat) : CompletionItem :=
  let d := gs.dataOf what
  { label := d.name.shortName
    sortText := sortTextFor sortIdx
    kind :=
      if d.isMethod then some .method
      else if d.isStaticField then some .constant
      else if d.isClassOrModule then some .classItem
      else none }

/-- The ranking-and-presentation pipeline of the handler's send path:
per-name sort, dedup, global sort, then one `CompletionItem` per ranked
candidate with its position as sort index (`items.size()`). -/
def rankAndBuild (gs : GlobalState) (pre : Str) (m : SimilarMethodsByName) :
    List CompletionItem :=
  let deduped := dedupCandidates (sortEachName m)
  let ranked := sortBy (globalRankLe gs pre) deduped
  ranked.enum.map fun e => getCompletionItem gs e.2.method e.1

/-- `core::Symbols::root()`. -/
def rootSymbol : SymbolRef := 0

/-- `membersStableOrderSlow`: the symbol's members in a stable
(name-sorted) order rather than declaration order. -/
def membersStableOrder (gs : GlobalState) (sym : SymbolRef) : List (Name × SymbolRef) :=
  sortBy (fun a b => !(strLt b.1.shortName a.1.shortName)) (gs.dataOf sym).members

/-- One iteration of `findSimilarConstantOrIdent`'s member scan: keep
class/module or static-field members whose name kind is `CONSTANT` and
whose name is similar to the pattern, assigning `items.size()` as each new
item's sort index. -/
def constantMembersAt (gs : GlobalState) (pattern : Str) (owner : SymbolRef)
    (acc : List CompletionItem) : List CompletionItem :=
  (membersStableOrder gs owner).foldl
    (fun items mem =>
      let d := gs.dataOf mem.2
      if (d.isClassOrModule || d.isStaticField)
          && (match d.name.kind with | .constant => true | _ => false)
          && gs.hasSimilarName d.name pattern then
        items ++ [getCompletionItem gs mem.2 items.length]
      else items)
    acc

/-- The `do/while` owner walk of `findSimilarConstantOrIdent`: step to the
current owner's owner, scan its members, and stop after processing the
root symbol itself (fuel bounds the walk, see the module comment). -/
def findSimilarConstantAux (gs : GlobalState) (pattern : Str) :
    Nat → SymbolRef → List CompletionItem → List CompletionItem
  | 0, _, items => items
  | fuel + 1, owner, items =>
    let owner' := (gs.dataOf owner).owner
    let items' := constantMembersAt gs pattern owner' items
    if owner' = rootSymbol then items' else findSimilarConstantAux gs pattern fuel owner' items'

/-- `LSPLoop::findSimilarConstantOrIdent`: applicable only when the
receiver type is a single `ClassType`; the pattern is that class's own
short name. -/
def findSimilarConstantOrIdent (gs : GlobalState) (receiverType : Ty) : List CompletionItem :=
  match receiverType with
  | .classType c =>
    findSimilarConstantAux gs (gs.dataOf c).name.shortName (gs.symbols.length + 1) c []
  | _ => []

/-- The query responses the handler distinguishes (`isSend`, `isIdent`,
`isConstant`). -/
inductive QueryResp where
  | send (callerSideName : Name) (dispatchResult : DispatchResult)
  | ident (retType : Ty)
  | constantResp (retType : Ty)

/-- The outcome of `setupLSPQueryByLoc` (external): either a setup error
or the list of query responses. -/
inductive QueryOutcome where
  | queryError
  | responses (rs : List QueryResp)

/-- The response codes the handler can produce: `InvalidRequest` when the
autocomplete feature flag is off, or the propagated setup error. -/
inductive LSPErrorCode where
  | invalidRequest
  | setupError
deriving DecidableEq

/-- The handler's overall response: an error response (`response->error`
set, no result), a completion list (`CompletionList(false, items)`), or an
internal fault (a failed `ENFORCE`; proved unreachable). -/
inductive Response where
  | error (code : LSPErrorCode)
  | completionList (isIncomplete : Bool) (items : List CompletionItem)
  | fault
deriving DecidableEq

/-- `LSPLoop::handleTextDocumentCompletion`: refuse with `InvalidRequest`
when the autocomplete feature flag is disabled (before any query setup or
candidate resolution); otherwise propagate setup errors, and resolve the
first query response through the send path (method completion) or the
ident/constant path (lexical constant completion). -/
def handleTextDocumentCompletion (gs : GlobalState) (lspAutocompleteEnabled : Bool)
    (q : QueryOutcome) : Response :=
  if !lspAutocompleteEnabled then .error .invalidRequest
  else
    match q with
    | .queryError => .error .setupError
    | .responses [] => .completionList false []
    | .responses (r :: _) =>
      match r with
      | .send callerSideName dispatchResult =>
        match allSimilarMethods gs dispatchResult callerSideName.shortName with
        | .error _ => .fault
        | .ok m => .completionList false (rankAndBuild gs callerSideName.shortName m)
      | .ident retType => .completionList false (findSimilarConstantOrIdent gs retType)
      | .constantResp retType => .completionList false (findSimilarConstantOrIdent gs retType)

/-! ### Auxiliary definitions used by the proofs -/

/-- All (name, candidate) pairs stored in a map. -/
def candEntries (m : SimilarMethodsByName) : List (Name × SimilarMethod) :=
  m.flatMap fun entry => entry.2.map fun c => (entry.1, c)

/-- Every list stored in a map (helper predicate: the C++ maps only ever
hold non-empty candidate vectors, which justifies indexing
`similarMethods[0]`). -/
def valsNonempty (m : SimilarMethodsByName) : Prop := ∀ entry ∈ m, entry.2 ≠ []

/-- Modelled from the spec: the ranking clause of the Ranker/Deduplicator
("sort the deduplicated sequence globally by (a) depth ascending; (b)
names whose raw text starts with the prefix sort before names that only
fuzzy-matched; (c) alphabetical by raw name; (d) method-identity ascending
as final tie-break"), written as a four-key lexicographic comparator.
This second definition exists only to be compared with the embedded
comparator `globalRankLt`. -/
def specGlobalRankLt (gs : GlobalState) (pre : Str) (left right : SimilarMethod) : Bool :=
  if left.depth < right.depth then true
  else if right.depth < left.depth then false
  else
    let leftShortName := (gs.dataOf left.method).name.shortName
    let rightShortName := (gs.dataOf right.method).name.shortName
    if strStartsWith leftShortName pre && !strStartsWith rightShortName pre then true
    else if !strStartsWith leftShortName pre && strStartsWith rightShortName pre then false
    else if strLt leftShortName rightShortName then true
    else if strLt rightShortName leftShortName then false
    else decide (left.method < right.method)

/-! ### Concrete example state used by witnesses and counterexamples -/

/-- A method name `foo`. -/
def fooName : Name := ⟨10, "foo".data, .utf8⟩

/-- A method name `foo_bar`. -/
def fooBarName : Name := ⟨11, "foo_bar".data, .utf8⟩

/-- A method name `initialize_x`. -/
def initXName : Name := ⟨12, "initialize_x".data, .utf8⟩

/-- An internally-generated rename-mangled variant of `foo`. -/
def mangleName : Name := ⟨13, "foo".data, .unique .mangleRename⟩

/-- The constant name `A`. -/
def classAName : Name := ⟨14, "A".data, .constant⟩

/-- The constant name `B`. -/
def classBName : Name := ⟨15, "B".data, .constant⟩

/-- The constant name `E`. -/
def classEName : Name := ⟨16, "E".data, .constant⟩

/-- A small concrete symbol table: class `A` (id 0) defines methods
`foo` (id 3) and `initialize_x` (id 4); class `B` (id 1) has superclass
`A` and defines `foo_bar` (id 5); class `E` (id 2) defines nothing.  The
similarity oracle is the minimal contract (exact prefix match). -/
def exGS : GlobalState :=
  { symbols :=
      [ { name := classAName, isClassOrModule := true,
          members := [(fooName, 3), (initXName, 4)] },
        { name := classBName, isClassOrModule := true, superClassRef := some 0,
          members := [(fooBarName, 5)] },
        { name := classEName, isClassOrModule := true },
        { name := fooName, isMethod := true },
        { name := initXName, isMethod := true },
        { name := fooBarName, isMethod := true } ],
    hasSimilarName := fun n p => strStartsWith n.shortName p }

/-! ### Map lemmas -/

theorem lookupName_mapAppend_self (m : SimilarMethodsByName) (n : Name) (c : SimilarMethod) :
    lookupName (mapAppend m n c) n = some ((lookupName m n).getD [] ++ [c]) := by
  induction m with
  | nil => simp [mapAppend, lookupName]
  | cons e rest ih =>
    obtain ⟨k, cs⟩ := e
    by_cases hk : k = n
    · simp [mapAppend, lookupName, hk]
    · simp [mapAppend, lookupName, hk, ih]


theorem candEntries_cons (entry : Name × List SimilarMethod) (rest : SimilarMethodsByName) :
    candEntries (entry :: rest) =
      (entry.2.map fun c => (entry.1, c)) ++ candEntries rest := rfl

theorem lookupName_mapAppend_other (m : SimilarMethodsByName) (n n' : Name) (c : SimilarMethod)
    (h : n' ≠ n) : lookupName (mapAppend m n c) n' = lookupName m n' := by
  have hne : ¬ (n = n') := fun h' => h h'.symm
  induction m with
  | nil => simp [mapAppend, lookupName, hne]
  | cons e rest ih =>
    obtain ⟨k, cs⟩ := e
    rw [mapAppend]
    by_cases hk : k = n
    · rw [if_pos hk]
      have hk' : ¬ (k = n') := by rw [hk]; exact hne
      simp [lookupName, hk']
    · rw [if_neg hk]
      by_cases hk' : k = n' <;> simp [lookupName, hk', ih]

theorem mapKeys_mapAppend (m : SimilarMethodsByName) (n : Name) (c : SimilarMethod) :
    mapKeys (mapAppend m n c) = if n ∈ mapKeys m then mapKeys m else mapKeys m ++ [n] := by
  induction m with
  | nil => simp [mapAppend, mapKeys]
  | cons e rest ih =>
    obtain ⟨k, cs⟩ := e
    rw [mapAppend]
    by_cases hk : k = n
    · rw [if_pos hk]
      simp [mapKeys, hk]
    · rw [if_neg hk]
      have hnk : ¬ n = k := fun h => hk h.symm
      simp only [mapKeys] at ih
      by_cases hmem : n ∈ List.map Prod.fst rest <;>
        simp [mapKeys, List.mem_cons, hnk, hmem, ih]

theorem nodup_mapKeys_mapAppend {m : SimilarMethodsByName} (n : Name) (c : SimilarMethod)
    (h : (mapKeys m).Nodup) : (mapKeys (mapAppend m n c)).Nodup := by
  rw [mapKeys_mapAppend]
  by_cases hmem : n ∈ mapKeys m
  · simpa [hmem]
  · simp only [hmem, if_false]
    simp [List.nodup_append, h, hmem]

theorem mem_candEntries_mapAppend {m : SimilarMethodsByName} {n : Name} {c : SimilarMethod}
    {e : Name × SimilarMethod} (h : e ∈ candEntries (mapAppend m n c)) :
    e ∈ candEntries m ∨ e = (n, c) := by
  induction m with
  | nil =>
    simp [mapAppend, candEntries] at h
    exact Or.inr h
  | cons entry rest ih =>
    obtain ⟨k, cs⟩ := entry
    rw [mapAppend] at h
    by_cases hk : k = n
    · rw [if_pos hk, candEntries_cons] at h
      rcases List.mem_append.1 h with h1 | h1
      · rcases List.mem_map.1 h1 with ⟨c', hc', he⟩
        rcases List.mem_append.1 hc' with h2 | h2
        · exact Or.inl (by
            rw [candEntries_cons]
            exact List.mem_append.2 (Or.inl (List.mem_map.2 ⟨c', h2, he⟩)))
        · have hcc : c' = c := by simpa using h2
          refine Or.inr ?_
          rw [← he, hcc, hk]
      · exact Or.inl (by rw [candEntries_cons]; exact List.mem_append.2 (Or.inr h1))
    · rw [if_neg hk, candEntries_cons] at h
      rcases List.mem_append.1 h with h1 | h1
      · exact Or.inl (by rw [candEntries_cons]; exact List.mem_append.2 (Or.inl h1))
      · rcases ih h1 with h2 | h2
        · exact Or.inl (by rw [candEntries_cons]; exact List.mem_append.2 (Or.inr h2))
        · exact Or.inr h2

theorem mem_candEntries_of_lookup {m : SimilarMethodsByName} {n : Name}
    {cs : List SimilarMethod} {c : SimilarMethod} (h : lookupName m n = some cs)
    (hc : c ∈ cs) : (n, c) ∈ candEntries m := by
  induction m with
  | nil => simp [lookupName] at h
  | cons entry rest ih =>
    obtain ⟨k, cs'⟩ := entry
    rw [lookupName] at h
    by_cases hk : k = n
    · rw [if_pos hk] at h
      injection h with h
      subst h
      rw [candEntries_cons]
      exact List.mem_append.2 (Or.inl (List.mem_map.2 ⟨c, hc, by rw [hk]⟩))
    · rw [if_neg hk] at h
      rw [candEntries_cons]
      exact List.mem_append.2 (Or.inr (ih h))

theorem lookupName_eq_none_iff (m : SimilarMethodsByName) (n : Name) :
    lookupName m n = none ↔ n ∉ mapKeys m := by
  induction m with
  | nil => simp [lookupName, mapKeys]
  | cons entry rest ih =>
    obtain ⟨k, cs⟩ := entry
    by_cases hk : k = n
    · subst hk
      simp [lookupName, mapKeys]
    · have hnk : ¬ n = k := fun h => hk h.symm
      simp [lookupName, mapKeys, hk, hnk, ih]

theorem mapKeys_merge_sublist (l r : SimilarMethodsByName) :
    (mapKeys (mergeSimilarMethods l r)).Sublist (mapKeys l) := by
  induction l with
  | nil => simp [mergeSimilarMethods, mapKeys]
  | cons entry rest ih =>
    obtain ⟨k, cs⟩ := entry
    rw [mergeSimilarMethods, List.filterMap_cons]
    cases h : lookupName r k with
    | none =>
      simp only
      exact List.Sublist.cons _ ih
    | some rs =>
      simp only
      exact List.Sublist.cons₂ _ ih

theorem nodup_mapKeys_merge {l : SimilarMethodsByName} (r : SimilarMethodsByName)
    (h : (mapKeys l).Nodup) : (mapKeys (mergeSimilarMethods l r)).Nodup :=
  (mapKeys_merge_sublist l r).nodup h

theorem lookupName_merge_of_left_none {l : SimilarMethodsByName} (r : SimilarMethodsByName)
    {n : Name} (h : lookupName l n = none) :
    lookupName (mergeSimilarMethods l r) n = none := by
  induction l with
  | nil => simp [mergeSimilarMethods, lookupName]
  | cons entry rest ih =>
    obtain ⟨k, cs⟩ := entry
    rw [lookupName] at h
    by_cases hk : k = n
    · rw [if_pos hk] at h; exact absurd h (by simp)
    · rw [if_neg hk] at h
      rw [mergeSimilarMethods, List.filterMap_cons]
      cases hr : lookupName r k with
      | none => exact ih h
      | some rs =>
        simp only
        rw [lookupName, if_neg hk]
        exact ih h

theorem lookupName_merge_of_right_none (l : SimilarMethodsByName) {r : SimilarMethodsByName}
    {n : Name} (h : lookupName r n = none) :
    lookupName (mergeSimilarMethods l r) n = none := by
  induction l with
  | nil => simp [mergeSimilarMethods, lookupName]
  | cons entry rest ih =>
    obtain ⟨k, cs⟩ := entry
    rw [mergeSimilarMethods, List.filterMap_cons]
    by_cases hk : k = n
    · subst hk
      rw [h]
      exact ih
    · cases hr : lookupName r k with
      | none => exact ih
      | some rs =>
        simp only
        rw [lookupName, if_neg hk]
        exact ih

theorem lookupName_merge {l : SimilarMethodsByName} (r : SimilarMethodsByName) (n : Name)
    (hnd : (mapKeys l).Nodup) :
    lookupName (mergeSimilarMethods l r) n =
      match lookupName l n with
      | none => none
      | some ls =>
        match lookupName r n with
        | none => none
        | some rs => some (ls ++ rs) := by
  induction l with
  | nil => simp [mergeSimilarMethods, lookupName]
  | cons entry rest ih =>
    obtain ⟨k, cs⟩ := entry
    have hnd' : (mapKeys rest).Nodup := by
      simp [mapKeys] at hnd
      exact hnd.2
    have hknotin : k ∉ mapKeys rest := by
      simp [mapKeys] at hnd
      simpa [mapKeys] using hnd.1
    rw [mergeSimilarMethods, List.filterMap_cons]
    by_cases hk : k = n
    · subst hk
      rw [lookupName, if_pos rfl]
      have hrestnone : lookupName rest k = none := (lookupName_eq_none_iff rest k).2 hknotin
      cases hr : lookupName r k with
      | none =>
        simp only
        have : lookupName (mergeSimilarMethods rest r) k = none :=
          lookupName_merge_of_left_none r hrestnone
        rw [mergeSimilarMethods] at this
        exact this
      | some rs =>
        simp only
        rw [lookupName, if_pos rfl]
    · rw [lookupName, if_neg hk]
      cases hr : lookupName r k with
      | none => exact ih hnd'
      | some rs =>
        simp only
        rw [lookupName, if_neg hk]
        exact ih hnd'

theorem mem_candEntries_merge {l r : SimilarMethodsByName} {e : Name × SimilarMethod}
    (h : e ∈ candEntries (mergeSimilarMethods l r)) :
    e ∈ candEntries l ∨ e ∈ candEntries r := by
  induction l with
  | nil => simp [mergeSimilarMethods, candEntries] at h
  | cons entry rest ih =>
    obtain ⟨k, cs⟩ := entry
    rw [mergeSimilarMethods, List.filterMap_cons] at h
    cases hr : lookupName r k with
    | none =>
      rw [hr] at h
      simp only at h
      rcases ih (by rw [mergeSimilarMethods]; exact h) with h1 | h1
      · exact Or.inl (by rw [candEntries_cons]; exact List.mem_append.2 (Or.inr h1))
      · exact Or.inr h1
    | some rs =>
      rw [hr] at h
      simp only at h
      rw [candEntries_cons] at h
      rcases List.mem_append.1 h with h1 | h1
      · rcases List.mem_map.1 h1 with ⟨c', hc', he⟩
        rcases List.mem_append.1 hc' with h2 | h2
        · exact Or.inl (by
            rw [candEntries_cons]
            exact List.mem_append.2 (Or.inl (List.mem_map.2 ⟨c', h2, he⟩)))
        · exact Or.inr (by
            rw [← he]
            exact mem_candEntries_of_lookup hr h2)
      · rcases ih (by rw [mergeSimilarMethods]; exact h1) with h2 | h2
        · exact Or.inl (by rw [candEntries_cons]; exact List.mem_append.2 (Or.inr h2))
        · exact Or.inr h2

/-! ### Keys of the produced maps are unique -/

theorem nodup_mapKeys_considerMember {gs : GlobalState} {receiver : SymbolRef} {pre : Str}
    {depth : Nat} {result : SimilarMethodsByName} (mem : Name × SymbolRef)
    (h : (mapKeys result).Nodup) :
    (mapKeys (considerMember gs receiver pre depth result mem)).Nodup := by
  rw [considerMember]
  by_cases hm : (gs.dataOf mem.2).isMethod = true
  · rw [if_pos hm]
    by_cases hs : gs.hasSimilarName mem.1 pre = true
    · rw [if_pos hs]
      exact nodup_mapKeys_mapAppend _ _ h
    · rw [if_neg hs]; exact h
  · rw [if_neg hm]; exact h

theorem nodup_mapKeys_foldl_considerMember {gs : GlobalState} {receiver : SymbolRef}
    {pre : Str} {depth : Nat} :
    ∀ (mems : List (Name × SymbolRef)) (result : SimilarMethodsByName),
      (mapKeys result).Nodup →
      (mapKeys (mems.foldl (considerMember gs receiver pre depth) result)).Nodup := by
  intro mems
  induction mems with
  | nil => intro result h; exact h
  | cons mem rest ih =>
    intro result h
    rw [List.foldl_cons]
    exact ih _ (nodup_mapKeys_considerMember mem h)

theorem nodup_mapKeys_walkAncestors {gs : GlobalState} {receiver : SymbolRef} {pre : Str} :
    ∀ (l : List SymbolRef) (depth : Nat) (result : SimilarMethodsByName),
      (mapKeys result).Nodup →
      (mapKeys (walkAncestors gs receiver pre l depth result)).Nodup := by
  intro l
  induction l with
  | nil => intro depth result h; exact h
  | cons ancestor rest ih =>
    intro depth result h
    rw [walkAncestors]
    exact ih _ _ (nodup_mapKeys_foldl_considerMember _ _ h)

theorem nodup_mapKeys_similarMethodsForClass (gs : GlobalState) (receiver : SymbolRef)
    (pre : Str) : (mapKeys (similarMethodsForClass gs receiver pre)).Nodup :=
  nodup_mapKeys_walkAncestors _ _ _ (by simp [mapKeys])

theorem nodup_mapKeys_similarMethodsForReceiver (gs : GlobalState) (t : Ty) (pre : Str) :
    (mapKeys (similarMethodsForReceiver gs t pre)).Nodup :=
  match t with
  | .classType s => nodup_mapKeys_similarMethodsForClass gs s pre
  | .appliedType klass _ => nodup_mapKeys_similarMethodsForClass gs klass pre
  | .andType l _ =>
    nodup_mapKeys_merge _ (nodup_mapKeys_similarMethodsForReceiver gs l pre)
  | .proxy u => nodup_mapKeys_similarMethodsForReceiver gs u pre
  | .orType _ _ => by simp [similarMethodsForReceiver, mapKeys]
  | .untyped => by simp [similarMethodsForReceiver, mapKeys]

/-! ### Characterization of class-walk candidates -/

theorem foldl_considerMember_entries {gs : GlobalState} {receiver : SymbolRef} {pre : Str}
    {depth : Nat} :
    ∀ (mems : List (Name × SymbolRef)) (acc : SimilarMethodsByName) {e},
      e ∈ candEntries (mems.foldl (considerMember gs receiver pre depth) acc) →
      e ∈ candEntries acc ∨
        ∃ mem, mem ∈ mems ∧
          e = (mem.1, ⟨depth, receiver, mem.2, none, none⟩) ∧
          (gs.dataOf mem.2).isMethod = true ∧ gs.hasSimilarName mem.1 pre = true := by
  intro mems
  induction mems with
  | nil => intro acc e h; exact Or.inl h
  | cons mem rest ih =>
    intro acc e h
    rw [List.foldl_cons] at h
    rcases ih _ h with h1 | h1
    · rw [considerMember] at h1
      by_cases hm : (gs.dataOf mem.2).isMethod = true
      · rw [if_pos hm] at h1
        by_cases hs : gs.hasSimilarName mem.1 pre = true
        · rw [if_pos hs] at h1
          rcases mem_candEntries_mapAppend h1 with h2 | h2
          · exact Or.inl h2
          · exact Or.inr ⟨mem, List.mem_cons_self mem rest, h2, hm, hs⟩
        · rw [if_neg hs] at h1; exact Or.inl h1
      · rw [if_neg hm] at h1; exact Or.inl h1
    · rcases h1 with ⟨mem', hmem, he, hm, hs⟩
      exact Or.inr ⟨mem', List.mem_cons_of_mem mem hmem, he, hm, hs⟩

theorem walkAncestors_entries {gs : GlobalState} {receiver : SymbolRef} {pre : Str} :
    ∀ (l : List SymbolRef) (depth : Nat) (acc : SimilarMethodsByName) {e},
      e ∈ candEntries (walkAncestors gs receiver pre l depth acc) →
      e ∈ candEntries acc ∨
        ∃ j ancestor mem, l[j]? = some ancestor ∧
          mem ∈ (gs.dataOf ancestor).members ∧
          e = (mem.1, ⟨depth + j, receiver, mem.2, none, none⟩) ∧
          (gs.dataOf mem.2).isMethod = true ∧ gs.hasSimilarName mem.1 pre = true := by
  intro l
  induction l with
  | nil => intro depth acc e h; exact Or.inl h
  | cons ancestor rest ih =>
    intro depth acc e h
    rw [walkAncestors] at h
    rcases ih _ _ h with h1 | h1
    · rcases foldl_considerMember_entries _ _ h1 with h2 | h2
      · exact Or.inl h2
      · rcases h2 with ⟨mem, hmem, he, hm, hs⟩
        exact Or.inr ⟨0, ancestor, mem, by simp, hmem, by simpa using he, hm, hs⟩
    · rcases h1 with ⟨j, anc, mem, hj, hmem, he, hm, hs⟩
      refine Or.inr ⟨j + 1, anc, mem, by simpa using hj, hmem, ?_, hm, hs⟩
      rw [he]
      have : depth + 1 + j = depth + (j + 1) := by omega
      rw [this]

theorem similarMethodsForClass_entries {gs : GlobalState} {receiver : SymbolRef} {pre : Str}
    {e : Name × SimilarMethod} (h : e ∈ candEntries (similarMethodsForClass gs receiver pre)) :
    ∃ j ancestor mem, (ancestors gs receiver)[j]? = some ancestor ∧
      mem ∈ (gs.dataOf ancestor).members ∧
      e = (mem.1, ⟨j, receiver, mem.2, none, none⟩) ∧
      (gs.dataOf mem.2).isMethod = true ∧ gs.hasSimilarName mem.1 pre = true := by
  rw [similarMethodsForClass] at h
  rcases walkAncestors_entries _ _ _ h with h1 | h1
  · simp [candEntries] at h1
  · rcases h1 with ⟨j, anc, mem, hj, hmem, he, hm, hs⟩
    exact ⟨j, anc, mem, hj, hmem, by simpa using he, hm, hs⟩

theorem lookupName_mem {m : SimilarMethodsByName} {n : Name} {cs : List SimilarMethod}
    (h : lookupName m n = some cs) : (n, cs) ∈ m := by
  induction m with
  | nil => simp [lookupName] at h
  | cons entry rest ih =>
    obtain ⟨k, cs'⟩ := entry
    rw [lookupName] at h
    by_cases hk : k = n
    · rw [if_pos hk] at h
      injection h with h
      subst h
      subst hk
      exact List.mem_cons_self _ _
    · rw [if_neg hk] at h
      exact List.mem_cons_of_mem _ (ih h)

theorem valsNonempty_mapAppend {m : SimilarMethodsByName} (n : Name) (c : SimilarMethod)
    (h : valsNonempty m) : valsNonempty (mapAppend m n c) := by
  induction m with
  | nil =>
    intro entry hmem
    simp [mapAppend] at hmem
    simp [hmem]
  | cons e rest ih =>
    obtain ⟨k, cs⟩ := e
    rw [mapAppend]
    by_cases hk : k = n
    · rw [if_pos hk]
      intro entry hmem
      rcases List.mem_cons.1 hmem with h1 | h1
      · simp [h1]
      · exact h entry (List.mem_cons_of_mem _ h1)
    · rw [if_neg hk]
      intro entry hmem
      rcases List.mem_cons.1 hmem with h1 | h1
      · exact h entry (h1 ▸ List.mem_cons_self _ _)
      · exact ih (fun e' he' => h e' (List.mem_cons_of_mem _ he')) entry h1

theorem valsNonempty_considerMember {gs : GlobalState} {receiver : SymbolRef} {pre : Str}
    {depth : Nat} {result : SimilarMethodsByName} (mem : Name × SymbolRef)
    (h : valsNonempty result) :
    valsNonempty (considerMember gs receiver pre depth result mem) := by
  rw [considerMember]
  by_cases hm : (gs.dataOf mem.2).isMethod = true
  · rw [if_pos hm]
    by_cases hs : gs.hasSimilarName mem.1 pre = true
    · rw [if_pos hs]; exact valsNonempty_mapAppend _ _ h
    · rw [if_neg hs]; exact h
  · rw [if_neg hm]; exact h

theorem valsNonempty_foldl_considerMember {gs : GlobalState} {receiver : SymbolRef}
    {pre : Str} {depth : Nat} :
    ∀ (mems : List (Name × SymbolRef)) (result : SimilarMethodsByName),
      valsNonempty result →
      valsNonempty (mems.foldl (considerMember gs receiver pre depth) result) := by
  intro mems
  induction mems with
  | nil => intro result h; exact h
  | cons mem rest ih =>
    intro result h
    rw [List.foldl_cons]
    exact ih _ (valsNonempty_considerMember mem h)

theorem valsNonempty_walkAncestors {gs : GlobalState} {receiver : SymbolRef} {pre : Str} :
    ∀ (l : List SymbolRef) (depth : Nat) (result : SimilarMethodsByName),
      valsNonempty result →
      valsNonempty (walkAncestors gs receiver pre l depth result) := by
  intro l
  induction l with
  | nil => intro depth result h; exact h
  | cons ancestor rest ih =>
    intro depth result h
    rw [walkAncestors]
    exact ih _ _ (valsNonempty_foldl_considerMember _ _ h)

theorem valsNonempty_merge {l r : SimilarMethodsByName} (h : valsNonempty l) :
    valsNonempty (mergeSimilarMethods l r) := by
  intro entry hmem
  rw [mergeSimilarMethods] at hmem
  rcases List.mem_filterMap.1 hmem with ⟨e, he, hf⟩
  cases hr : lookupName r e.1 with
  | none => rw [hr] at hf; simp at hf
  | some rs =>
    rw [hr] at hf
    simp only [Option.some.injEq] at hf
    have : e.2 ≠ [] := h e he
    rw [← hf]
    simp [this]

theorem valsNonempty_similarMethodsForReceiver (gs : GlobalState) (t : Ty) (pre : Str) :
    valsNonempty (similarMethodsForReceiver gs t pre) :=
  match t with
  | .classType s => valsNonempty_walkAncestors _ _ _ (by intro e h; simp at h)
  | .appliedType klass _ => valsNonempty_walkAncestors _ _ _ (by intro e h; simp at h)
  | .andType l _ => valsNonempty_merge (valsNonempty_similarMethodsForReceiver gs l pre)
  | .proxy u => valsNonempty_similarMethodsForReceiver gs u pre
  | .orType _ _ => by intro e h; simp [similarMethodsForReceiver] at h
  | .untyped => by intro e h; simp [similarMethodsForReceiver] at h

theorem lookupName_similarMethodsForReceiver_ne_nil {gs : GlobalState} {t : Ty} {pre : Str}
    {n : Name} {cs : List SimilarMethod}
    (h : lookupName (similarMethodsForReceiver gs t pre) n = some cs) : cs ≠ [] :=
  valsNonempty_similarMethodsForReceiver gs t pre (n, cs) (lookupName_mem h)

/-- Every candidate the type-algebra walker produces still has null
`receiverType` and `constr`. -/
theorem similarMethodsForReceiver_entries_null (gs : GlobalState) (t : Ty) (pre : Str) :
    ∀ e ∈ candEntries (similarMethodsForReceiver gs t pre),
      e.2.receiverType = none ∧ e.2.constr = none :=
  match t with
  | .classType s => by
    intro e h
    rcases similarMethodsForClass_entries h with ⟨j, anc, mem, _, _, he, _, _⟩
    rw [he]
    exact ⟨rfl, rfl⟩
  | .appliedType klass _ => by
    intro e h
    rcases similarMethodsForClass_entries h with ⟨j, anc, mem, _, _, he, _, _⟩
    rw [he]
    exact ⟨rfl, rfl⟩
  | .andType l r => by
    intro e h
    rcases mem_candEntries_merge h with h1 | h1
    · exact similarMethodsForReceiver_entries_null gs l pre e h1
    · exact similarMethodsForReceiver_entries_null gs r pre e h1
  | .proxy u => fun e h => similarMethodsForReceiver_entries_null gs u pre e h
  | .orType _ _ => by intro e h; simp [similarMethodsForReceiver, candEntries] at h
  | .untyped => by intro e h; simp [similarMethodsForReceiver, candEntries] at h

/-! ### Stamping never faults on freshly produced candidates -/

theorem stampList_ok {mainReceiver : Ty} {mainConstr : Option Constraint}
    {cs : List SimilarMethod} (h : ∀ c ∈ cs, c.receiverType = none ∧ c.constr = none) :
    stampList mainReceiver mainConstr cs =
      .ok (cs.map fun c => { c with receiverType := some mainReceiver, constr := mainConstr }) := by
  induction cs with
  | nil => simp [stampList]
  | cons c rest ih =>
    have hc := h c (List.mem_cons_self c rest)
    have hrest : ∀ c' ∈ rest, c'.receiverType = none ∧ c'.constr = none :=
      fun c' hc' => h c' (List.mem_cons_of_mem c hc')
    simp [stampList, stampSimilarMethod, hc.1, hc.2, ih hrest]

theorem stampAll_ok {mainReceiver : Ty} {mainConstr : Option Constraint}
    {m : SimilarMethodsByName}
    (h : ∀ e ∈ candEntries m, e.2.receiverType = none ∧ e.2.constr = none) :
    stampAll mainReceiver mainConstr m =
      .ok (m.map fun e =>
        (e.1, e.2.map fun c =>
          { c with receiverType := some mainReceiver, constr := mainConstr })) := by
  induction m with
  | nil => simp [stampAll]
  | cons entry rest ih =>
    obtain ⟨n, cs⟩ := entry
    have hcs : ∀ c ∈ cs, c.receiverType = none ∧ c.constr = none := by
      intro c hc
      exact h (n, c) (by
        rw [candEntries_cons]
        exact List.mem_append.2 (Or.inl (List.mem_map.2 ⟨c, hc, rfl⟩)))
    have hrest : ∀ e ∈ candEntries rest, e.2.receiverType = none ∧ e.2.constr = none := by
      intro e he
      exact h e (by rw [candEntries_cons]; exact List.mem_append.2 (Or.inr he))
    simp [stampAll, stampList_ok hcs, ih hrest]

theorem candEntries_stamped {mainReceiver : Ty} {mainConstr : Option Constraint}
    (m : SimilarMethodsByName) :
    ∀ e ∈ candEntries (m.map fun e =>
        (e.1, e.2.map fun c =>
          { c with receiverType := some mainReceiver, constr := mainConstr })),
      e.2.receiverType = some mainReceiver ∧ e.2.constr = mainConstr := by
  induction m with
  | nil => intro e he; simp [candEntries] at he
  | cons entry rest ih =>
    intro e he
    obtain ⟨n, cs⟩ := entry
    rw [List.map_cons, candEntries_cons] at he
    rcases List.mem_append.1 he with h1 | h1
    · rcases List.mem_map.1 h1 with ⟨c', hc', hce⟩
      rcases List.mem_map.1 hc' with ⟨c0, _, hc0⟩
      rw [← hce, ← hc0]
      exact ⟨rfl, rfl⟩
    · exact ih e h1

theorem allSimilarMethods_ok (gs : GlobalState) (dr : DispatchResult) (pre : Str) :
    ∃ m, allSimilarMethods gs dr pre = .ok m ∧
      ∀ e ∈ candEntries m, e.2.receiverType.isSome = true :=
  match dr with
  | .mk mainReceiver mainConstr k none => by
    have hnull := similarMethodsForReceiver_entries_null gs mainReceiver pre
    simp only [allSimilarMethods, stampAll_ok hnull]
    refine ⟨_, rfl, ?_⟩
    intro e he
    rw [(candEntries_stamped _ e he).1]
    rfl
  | .mk mainReceiver mainConstr k (some s) => by
    obtain ⟨m', hm', hp'⟩ := allSimilarMethods_ok gs s pre
    have hnull := similarMethodsForReceiver_entries_null gs mainReceiver pre
    simp only [allSimilarMethods, stampAll_ok hnull, hm']
    refine ⟨_, rfl, ?_⟩
    intro e he
    rcases mem_candEntries_merge he with h1 | h1
    · rw [(candEntries_stamped _ e h1).1]
      rfl
    · exact hp' e h1

/-! ### Sorting lemmas -/

theorem mem_insertOrd (le : α → α → Bool) (a : α) :
    ∀ (l : List α) (x : α), x ∈ insertOrd le a l ↔ x = a ∨ x ∈ l := by
  intro l
  induction l with
  | nil => intro x; simp [insertOrd]
  | cons b bs ih =>
    intro x
    rw [insertOrd]
    by_cases hle : le a b = true
    · rw [if_pos hle]
      exact List.mem_cons
    · rw [if_neg hle]
      simp only [List.mem_cons, ih]
      tauto

theorem mem_sortBy (le : α → α → Bool) : ∀ (l : List α) (x : α), x ∈ sortBy le l ↔ x ∈ l := by
  intro l
  induction l with
  | nil => intro x; simp [sortBy]
  | cons a as ih =>
    intro x
    rw [sortBy, mem_insertOrd]
    simp [ih]

theorem insertOrd_ne_nil (le : α → α → Bool) (a : α) (l : List α) :
    insertOrd le a l ≠ [] := by
  cases l with
  | nil => simp [insertOrd]
  | cons b bs =>
    rw [insertOrd]
    by_cases hle : le a b = true <;> simp [hle]

theorem pairwise_insertOrd {le : α → α → Bool}
    (htot : ∀ a b, (le a b || le b a) = true)
    (htrans : ∀ a b c, le a b = true → le b c = true → le a c = true) (a : α) :
    ∀ {l : List α}, l.Pairwise (fun x y => le x y = true) →
      (insertOrd le a l).Pairwise (fun x y => le x y = true) := by
  intro l
  induction l with
  | nil => intro _; simp [insertOrd]
  | cons b bs ih =>
    intro h
    rcases List.pairwise_cons.1 h with ⟨hb, hbs⟩
    rw [insertOrd]
    by_cases hle : le a b = true
    · rw [if_pos hle]
      refine List.pairwise_cons.2 ⟨?_, h⟩
      intro x hx
      rcases List.mem_cons.1 hx with h1 | h1
      · rw [h1]; exact hle
      · exact htrans a b x hle (hb x h1)
    · rw [if_neg hle]
      refine List.pairwise_cons.2 ⟨?_, ih hbs⟩
      intro x hx
      rcases (mem_insertOrd le a bs x).1 hx with h1 | h1
      · rw [h1]
        have := htot a b
        rw [Bool.or_eq_true] at this
        rcases this with h2 | h2
        · exact absurd h2 hle
        · exact h2
      · exact hb x h1

theorem pairwise_sortBy {le : α → α → Bool}
    (htot : ∀ a b, (le a b || le b a) = true)
    (htrans : ∀ a b c, le a b = true → le b c = true → le a c = true) :
    ∀ (l : List α), (sortBy le l).Pairwise (fun x y => le x y = true) := by
  intro l
  induction l with
  | nil => simp [sortBy]
  | cons a as ih => exact pairwise_insertOrd htot htrans a ih

theorem sortBy_head_le {le : α → α → Bool}
    (htot : ∀ a b, (le a b || le b a) = true)
    (htrans : ∀ a b c, le a b = true → le b c = true → le a c = true)
    {l : List α} {c : α} {rest : List α} (h : sortBy le l = c :: rest) :
    ∀ x ∈ l, le c x = true := by
  intro x hx
  have hmem : x ∈ c :: rest := by
    rw [← h, mem_sortBy]
    exact hx
  rcases List.mem_cons.1 hmem with h1 | h1
  · rw [h1]
    have := htot c c
    rw [Bool.or_eq_true] at this
    tauto
  · have hp := pairwise_sortBy htot htrans l
    rw [h] at hp
    exact (List.pairwise_cons.1 hp).1 x h1

theorem sortBy_ne_nil {le : α → α → Bool} {l : List α} (h : l ≠ []) : sortBy le l ≠ [] := by
  cases l with
  | nil => exact absurd rfl h
  | cons a as => exact insertOrd_ne_nil le a (sortBy le as)

/-! ### The per-name comparator is a (non-strict) total preorder -/

theorem perNameLe_iff (a b : SimilarMethod) :
    perNameLe a b = true ↔
      a.depth < b.depth ∨ (a.depth = b.depth ∧ a.method ≤ b.method) := by
  rw [perNameLe, perNameLt]
  by_cases h : b.depth ≠ a.depth
  · rw [if_pos h, Bool.not_eq_true', decide_eq_false_iff_not]
    omega
  · rw [if_neg h, Bool.not_eq_true', decide_eq_false_iff_not]
    have hd : a.depth = b.depth := by omega
    constructor
    · intro h2
      exact Or.inr ⟨hd, Nat.le_of_not_lt h2⟩
    · rintro (h2 | ⟨-, h3⟩)
      · exact absurd h2 (by omega)
      · exact Nat.not_lt.2 h3

theorem perNameLe_total (a b : SimilarMethod) : (perNameLe a b || perNameLe b a) = true := by
  rw [Bool.or_eq_true, perNameLe_iff, perNameLe_iff]
  rcases Nat.lt_trichotomy a.depth b.depth with h | h | h
  · exact Or.inl (Or.inl h)
  · rcases Nat.le_total a.method b.method with h2 | h2
    · exact Or.inl (Or.inr ⟨h, h2⟩)
    · exact Or.inr (Or.inr ⟨h.symm, h2⟩)
  · exact Or.inr (Or.inl h)

theorem perNameLe_trans (a b c : SimilarMethod) (h1 : perNameLe a b = true)
    (h2 : perNameLe b c = true) : perNameLe a c = true := by
  rw [perNameLe_iff] at h1 h2 ⊢
  rcases h1 with h1 | ⟨h1d, h1m⟩
  · rcases h2 with h2 | ⟨h2d, _⟩
    · exact Or.inl (by omega)
    · exact Or.inl (by omega)
  · rcases h2 with h2 | ⟨h2d, h2m⟩
    · exact Or.inl (by omega)
    · exact Or.inr ⟨by omega, Nat.le_trans h1m h2m⟩

/-! ### String-order lemmas -/

theorem strLt_asymm : ∀ {s t : Str}, strLt s t = true → strLt t s = false := by
  intro s
  induction s with
  | nil =>
    intro t h
    cases t with
    | nil => simp [strLt] at h
    | cons b bs => simp [strLt]
  | cons a as ih =>
    intro t h
    cases t with
    | nil => simp [strLt] at h
    | cons b bs =>
      rw [strLt] at h ⊢
      by_cases hab : a < b
      · have hba : ¬ b < a := lt_asymm hab
        rw [if_neg hba, if_pos hab]
      · rw [if_neg hab] at h
        by_cases hba : b < a
        · rw [if_pos hba] at h
          exact absurd h (by simp)
        · rw [if_neg hba] at h
          rw [if_neg hba, if_neg hab]
          exact ih h

theorem strLt_irrefl (s : Str) : strLt s s = false := by
  cases h : strLt s s with
  | false => rfl
  | true => exact absurd (strLt_asymm h) (by simp [h])

theorem strLt_total_of_ne : ∀ {s t : Str}, s ≠ t → strLt s t = true ∨ strLt t s = true := by
  intro s
  induction s with
  | nil =>
    intro t h
    cases t with
    | nil => exact absurd rfl h
    | cons b bs => exact Or.inl (by simp [strLt])
  | cons a as ih =>
    intro t h
    cases t with
    | nil => exact Or.inr (by simp [strLt])
    | cons b bs =>
      by_cases hab : a < b
      · exact Or.inl (by rw [strLt, if_pos hab])
      · by_cases hba : b < a
        · refine Or.inr ?_
          rw [strLt, if_pos hba]
        · have heq : a = b := le_antisymm (le_of_not_lt hba) (le_of_not_lt hab)
          have htails : as ≠ bs := by
            intro he
            exact h (by rw [heq, he])
          rcases ih htails with h1 | h1
          · exact Or.inl (by rw [strLt, if_neg hab, if_neg hba]; exact h1)
          · refine Or.inr ?_
            have hba' : ¬ b < a := hba
            have hab' : ¬ a < b := hab
            rw [strLt, if_neg (heq ▸ hab), if_neg (heq ▸ hba)]
            exact h1

/-! ### The global ranking comparator -/

theorem globalRankLt_eq_spec (gs : GlobalState) (pre : Str) (l r : SimilarMethod) :
    globalRankLt gs pre l r = specGlobalRankLt gs pre l r := by
  simp only [globalRankLt, specGlobalRankLt]
  by_cases hd : l.depth ≠ r.depth
  · rw [if_pos hd]
    rcases Nat.lt_or_ge l.depth r.depth with h1 | h1
    · rw [if_pos h1]
      simp [h1]
    · have h2 : ¬ l.depth < r.depth := by omega
      have h3 : r.depth < l.depth := by omega
      rw [if_neg h2, if_pos h3]
      simp [h2]
  · rw [if_neg hd]
    have h2 : ¬ l.depth < r.depth := by omega
    have h3 : ¬ r.depth < l.depth := by omega
    rw [if_neg h2, if_neg h3]
    by_cases hn : (gs.dataOf l.method).name.shortName ≠ (gs.dataOf r.method).name.shortName
    · rw [if_pos hn]
      by_cases s1 : strStartsWith (gs.dataOf l.method).name.shortName pre = true <;>
        by_cases s2 : strStartsWith (gs.dataOf r.method).name.shortName pre = true
      · simp only [s1, s2, Bool.not_true, Bool.and_false, Bool.false_and, Bool.and_true,
          Bool.true_and, if_false]
        cases hlt : strLt (gs.dataOf l.method).name.shortName (gs.dataOf r.method).name.shortName with
        | true => simp
        | false =>
          rcases strLt_total_of_ne hn with h4 | h4
          · exact absurd h4 (by simp [hlt])
          · simp [h4]
      · simp [s1, s2]
      · simp [s1, s2]
      · simp only [s1, s2, Bool.not_false, Bool.and_false, Bool.false_and, Bool.and_true,
          Bool.true_and, if_false]
        cases hlt : strLt (gs.dataOf l.method).name.shortName (gs.dataOf r.method).name.shortName with
        | true => simp
        | false =>
          rcases strLt_total_of_ne hn with h4 | h4
          · exact absurd h4 (by simp [hlt])
          · simp [h4]
    · rw [if_neg hn]
      have heq : (gs.dataOf l.method).name.shortName = (gs.dataOf r.method).name.shortName := by
        by_contra hc
        exact hn hc
      rw [heq]
      simp [strLt_irrefl]

theorem globalRankLt_exactly_one (gs : GlobalState) (pre : Str) (l r : SimilarMethod)
    (h : l.method ≠ r.method ∨ l.depth ≠ r.depth) :
    (globalRankLt gs pre l r = true ∧ globalRankLt gs pre r l = false) ∨
      (globalRankLt gs pre l r = false ∧ globalRankLt gs pre r l = true) := by
  simp only [globalRankLt]
  by_cases hd : l.depth ≠ r.depth
  · have hd' : r.depth ≠ l.depth := fun h' => hd h'.symm
    rw [if_pos hd, if_pos hd']
    rcases Nat.lt_or_ge l.depth r.depth with h1 | h1
    · exact Or.inl ⟨by simp [h1], by simp; omega⟩
    · have h2 : r.depth < l.depth := by omega
      exact Or.inr ⟨by simp; omega, by simp [h2]⟩
  · have hd' : ¬ r.depth ≠ l.depth := fun h' => hd (fun h'' => h' h''.symm)
    rw [if_neg hd, if_neg hd']
    have hm : l.method ≠ r.method := by
      rcases h with h | h
      · exact h
      · exact absurd h hd
    by_cases hn : (gs.dataOf l.method).name.shortName = (gs.dataOf r.method).name.shortName
    · have hn1 : ¬ (gs.dataOf l.method).name.shortName ≠ (gs.dataOf r.method).name.shortName :=
        fun h' => h' hn
      have hn2 : ¬ (gs.dataOf r.method).name.shortName ≠ (gs.dataOf l.method).name.shortName :=
        fun h' => h' hn.symm
      rw [if_neg hn1, if_neg hn2]
      rcases Nat.lt_or_gt_of_ne hm with h1 | h1
      · exact Or.inl ⟨by simp [h1], by simp; exact Nat.le_of_lt h1⟩
      · exact Or.inr ⟨by simp; exact Nat.le_of_lt h1, by simp [h1]⟩
    · have hn1 : (gs.dataOf l.method).name.shortName ≠ (gs.dataOf r.method).name.shortName := hn
      have hn2 : (gs.dataOf r.method).name.shortName ≠ (gs.dataOf l.method).name.shortName :=
        fun h' => hn h'.symm
      rw [if_pos hn1, if_pos hn2]
      by_cases s1 : strStartsWith (gs.dataOf l.method).name.shortName pre = true <;>
        by_cases s2 : strStartsWith (gs.dataOf r.method).name.shortName pre = true
      · simp only [s1, s2, Bool.not_true, Bool.and_false, Bool.false_and, if_false]
        rcases strLt_total_of_ne hn1 with h4 | h4
        · exact Or.inl ⟨h4, strLt_asymm h4⟩
        · exact Or.inr ⟨strLt_asymm h4, h4⟩
      · refine Or.inl ⟨by simp [s1, s2], by simp [s1, s2]⟩
      · refine Or.inr ⟨by simp [s1, s2], by simp [s1, s2]⟩
      · simp only [s1, s2, Bool.not_false, Bool.and_false, Bool.false_and, Bool.and_true,
          Bool.true_and, if_false]
        rcases strLt_total_of_ne hn1 with h4 | h4
        · exact Or.inl ⟨h4, strLt_asymm h4⟩
        · exact Or.inr ⟨strLt_asymm h4, h4⟩

/-! ### Decimal rendering lemmas -/

theorem digitsAux_stable (n : Nat) : ∀ f f', n < f → n < f' → digitsAux f n = digitsAux f' n := by
  induction n using Nat.strong_induction_on with
  | _ n ih =>
    intro f f' hf hf'
    obtain ⟨f1, rfl⟩ : ∃ f1, f = f1 + 1 := ⟨f - 1, by omega⟩
    obtain ⟨f2, rfl⟩ : ∃ f2, f' = f2 + 1 := ⟨f' - 1, by omega⟩
    rw [digitsAux, digitsAux]
    by_cases h10 : n < 10
    · rw [if_pos h10, if_pos h10]
    · rw [if_neg h10, if_neg h10]
      congr 1
      exact ih (n / 10) (by omega) f1 f2 (by omega) (by omega)

theorem natDecimal_small (n : Nat) (h : n < 10) : natDecimal n = [Char.ofNat (48 + n)] := by
  rw [natDecimal, digitsAux, if_pos h]

theorem natDecimal_unfold (n : Nat) (h : ¬ n < 10) :
    natDecimal n = natDecimal (n / 10) ++ [Char.ofNat (48 + n % 10)] := by
  rw [natDecimal, natDecimal, digitsAux, if_neg h]
  congr 1
  exact digitsAux_stable (n / 10) n (n / 10 + 1) (by omega) (by omega)

theorem one_le_length_natDecimal (n : Nat) : 1 ≤ (natDecimal n).length := by
  by_cases h : n < 10
  · rw [natDecimal_small n h]; simp
  · rw [natDecimal_unfold n h]; simp

theorem length_natDecimal_le : ∀ k n, n < 10 ^ (k + 1) → (natDecimal n).length ≤ k + 1 := by
  intro k
  induction k with
  | zero =>
    intro n h
    rw [natDecimal_small n (by simpa using h)]
    simp
  | succ k ih =>
    intro n h
    by_cases h10 : n < 10
    · rw [natDecimal_small n h10]
      simp
    · rw [natDecimal_unfold n h10, List.length_append]
      have hdiv : n / 10 < 10 ^ (k + 1) := by
        apply (Nat.div_lt_iff_lt_mul (by norm_num)).2
        calc n < 10 ^ (k + 2) := h
          _ = 10 ^ (k + 1) * 10 := by rw [pow_succ]
      have := ih (n / 10) hdiv
      simp only [List.length_cons, List.length_nil]
      omega

theorem le_length_natDecimal : ∀ k n, 10 ^ k ≤ n → k + 1 ≤ (natDecimal n).length := by
  intro k
  induction k with
  | zero => intro n _; exact one_le_length_natDecimal n
  | succ k ih =>
    intro n h
    have h10 : ¬ n < 10 := by
      intro hc
      have hp : (10 : Nat) ^ 1 ≤ 10 ^ (k + 1) :=
        Nat.pow_le_pow_right (by norm_num) (by omega)
      simp at hp
      omega
    rw [natDecimal_unfold n h10, List.length_append]
    have hdiv : 10 ^ k ≤ n / 10 := by
      apply (Nat.le_div_iff_mul_le (by norm_num)).2
      calc 10 ^ k * 10 = 10 ^ (k + 1) := (pow_succ 10 k).symm
        _ ≤ n := h
    have := ih (n / 10) hdiv
    simp only [List.length_cons, List.length_nil]
    omega

theorem sortTextFor_length_eq_six {n : Nat} (h : n ≤ 999999) : (sortTextFor n).length = 6 := by
  have hlt : n < 10 ^ 6 := by norm_num; omega
  have h6 : (natDecimal n).length ≤ 6 := length_natDecimal_le 5 n hlt
  rw [sortTextFor]
  by_cases hlen : (natDecimal n).length < 6
  · rw [if_pos hlen]
    simp only [List.length_append, List.length_replicate]
    omega
  · rw [if_neg hlen]
    omega

theorem sortTextFor_wide {n : Nat} (h : 999999 < n) : sortTextFor n = natDecimal n := by
  have hge : 10 ^ 6 ≤ n := by norm_num; omega
  have h7 : 7 ≤ (natDecimal n).length := le_length_natDecimal 6 n hge
  rw [sortTextFor, if_neg (by omega)]

/-! ### Claim theorems -/

/-- Claim C1 (counterexample): in the concrete state `exGS` with class `B`
(id 1) whose superclass `A` (id 0) declares method `foo` (id 3), the
single candidate produced for `foo` by `similarMethodsForClass(B, "foo")`
sits at depth 1, the ancestor found at index 1 of `ancestors(B)` is `A`
(id 0), and `foo` is a direct member of `A` — yet the symbol stored in the
candidate's second field is 1 (`B`, the original receiver), not 0 (the
declaring ancestor), refuting the claim that the candidate carries
"declaringAncestor equal to that ancestor (not to C)". -/
theorem C1_counterexample :
    lookupName (similarMethodsForClass exGS 1 "foo".data) fooName =
      some [{ depth := 1, receiver := 1, method := 3 }] ∧
    (ancestors exGS 1)[1]? = some 0 ∧
    (fooName, 3) ∈ (exGS.dataOf 0).members ∧
    ({ depth := 1, receiver := 1, method := 3 } : SimilarMethod).receiver = 1 ∧
    (1 : SymbolRef) ≠ 0 := by
  refine ⟨rfl, rfl, ?_, rfl, by decide⟩
  simp [exGS, GlobalState.dataOf]

/-- Claim C1 (amended): `similarMethods(C, prefix)` walks `ancestors(C)`
with a depth counter starting at 0 for `C` itself, and every candidate it
produces has depth equal to the index (number of hops) of the ancestor in
whose direct members the method was found — but the symbol stored
alongside (the struct field named `receiver`) is `C` itself, the original
receiver, for every candidate, not the declaring ancestor. -/
theorem C1_depth_is_hops_but_receiver_is_C (gs : GlobalState) (receiver : SymbolRef)
    (pre : Str) (n : Name) (cs : List SimilarMethod) (c : SimilarMethod)
    (h : lookupName (similarMethodsForClass gs receiver pre) n = some cs) (hc : c ∈ cs) :
    c.receiver = receiver ∧ c.receiverType = none ∧ c.constr = none ∧
      (gs.dataOf c.method).isMethod = true ∧ gs.hasSimilarName n pre = true ∧
      ∃ ancestor, (ancestors gs receiver)[c.depth]? = some ancestor ∧
        (n, c.method) ∈ (gs.dataOf ancestor).members := by
  have hment := mem_candEntries_of_lookup h hc
  rcases similarMethodsForClass_entries hment with ⟨j, anc, mem, hj, hmem, he, hm, hs⟩
  injection he with hn hc2
  subst hn
  subst hc2
  exact ⟨rfl, rfl, rfl, hm, hs, anc, hj, hmem⟩

/-- Claim C1 (witness): the amended theorem applied to the concrete state
`exGS`, receiver `B` (id 1) and the `foo` candidate found at depth 1. -/
theorem C1_depth_is_hops_but_receiver_is_C_witness :
    ({ depth := 1, receiver := 1, method := 3 } : SimilarMethod).receiver = 1 ∧
    ({ depth := 1, receiver := 1, method := 3 } : SimilarMethod).receiverType = none ∧
    ({ depth := 1, receiver := 1, method := 3 } : SimilarMethod).constr = none ∧
    (exGS.dataOf ({ depth := 1, receiver := 1, method := 3 } : SimilarMethod).method).isMethod
      = true ∧
    exGS.hasSimilarName fooName "foo".data = true ∧
    ∃ ancestor,
      (ancestors exGS 1)[({ depth := 1, receiver := 1, method := 3 } : SimilarMethod).depth]?
        = some ancestor ∧
      (fooName, ({ depth := 1, receiver := 1, method := 3 } : SimilarMethod).method)
        ∈ (exGS.dataOf ancestor).members :=
  C1_depth_is_hops_but_receiver_is_C exGS 1 "foo".data fooName
    [{ depth := 1, receiver := 1, method := 3 }] { depth := 1, receiver := 1, method := 3 }
    rfl (by simp)

/-- Claim C2: for every pair of types and every prefix, the and-type case
of the type-algebra walker intersects by name — a name is mapped in the
result exactly when it is mapped in both components, and then to the left
component's candidate list concatenated with the right component's list
(no deduplication); a name mapped in only one component is absent. -/
theorem C2_andType_intersects_by_name (gs : GlobalState) (l r : Ty) (pre : Str) (n : Name) :
    lookupName (similarMethodsForReceiver gs (.andType l r) pre) n =
      match lookupName (similarMethodsForReceiver gs l pre) n,
          lookupName (similarMethodsForReceiver gs r pre) n with
      | some ls, some rs => some (ls ++ rs)
      | some _, none => none
      | none, _ => none := by
  have hnd := nodup_mapKeys_similarMethodsForReceiver gs l pre
  have hmg : similarMethodsForReceiver gs (.andType l r) pre =
      mergeSimilarMethods (similarMethodsForReceiver gs l pre)
        (similarMethodsForReceiver gs r pre) := rfl
  rw [hmg, lookupName_merge _ n hnd]
  cases hL : lookupName (similarMethodsForReceiver gs l pre) n <;>
    cases hR : lookupName (similarMethodsForReceiver gs r pre) n <;> rfl

/-- Claim C3: when a dispatch result has a secondary link, the chain walk
merges the main component's (stamped) candidate map with the recursively
computed map of the secondary chain using the same by-name intersection as
the and-type case; the union-versus-intersection kind of the link is never
consulted (the result is invariant under changing it); and a name absent
from either side of a merge is absent from the merged map. -/
theorem C3_secondary_always_intersected :
    (∀ (gs : GlobalState) (recvT : Ty) (c : Option Constraint) (k k' : SecondaryKind)
        (sec : Option DispatchResult) (pre : Str),
      allSimilarMethods gs (.mk recvT c k sec) pre =
        allSimilarMethods gs (.mk recvT c k' sec) pre) ∧
    (∀ (gs : GlobalState) (recvT : Ty) (c : Option Constraint) (k : SecondaryKind)
        (s : DispatchResult) (pre : Str),
      allSimilarMethods gs (.mk recvT c k (some s)) pre =
        match allSimilarMethods gs (.mk recvT c k none) pre, allSimilarMethods gs s pre with
        | .ok m, .ok m' => .ok (mergeSimilarMethods m m')
        | .error e, _ => .error e
        | .ok _, .error e => .error e) ∧
    (∀ (m₁ m₂ : SimilarMethodsByName) (n : Name),
      lookupName m₁ n = none ∨ lookupName m₂ n = none →
      lookupName (mergeSimilarMethods m₁ m₂) n = none) := by
  refine ⟨?_, ?_, ?_⟩
  · intro gs recvT c k k' sec pre
    simp only [allSimilarMethods]
  · intro gs recvT c k s pre
    simp only [allSimilarMethods]
    cases hst : stampAll recvT c (similarMethodsForReceiver gs recvT pre) with
    | error e => rfl
    | ok result =>
      cases hrec : allSimilarMethods gs s pre with
      | error e => rfl
      | ok rest => rfl
  · intro m₁ m₂ n h
    rcases h with h | h
    · exact lookupName_merge_of_left_none _ h
    · exact lookupName_merge_of_right_none _ h

/-- Claim C3 (witness): the spec's scenario on the concrete state `exGS` —
a chain whose main receiver is class `A` (which defines `initialize_x`)
and whose secondary receiver is class `E` (which does not): the name is
absent from the merged map, and the whole chain resolves to the empty
(ok) map. -/
theorem C3_secondary_always_intersected_witness :
    lookupName
        (mergeSimilarMethods
          [(initXName,
            [{ depth := 0, receiver := 0, method := 4,
               receiverType := some (.classType 0), constr := none }])]
          [])
        initXName = none ∧
    allSimilarMethods exGS
        (.mk (.classType 0) none .orKind (some (.mk (.classType 2) none .orKind none)))
        "initialize".data = .ok [] :=
  ⟨C3_secondary_always_intersected.2.2 _ [] initXName (Or.inr rfl), rfl⟩

/-- Claim C4: the global ranking comparator equals the spec's four-key
lexicographic comparator (depth ascending, then raw-prefix matches before
fuzzy-only matches, then alphabetical by raw name, then method identity
ascending), and for every two candidates that differ in method identity or
in depth, exactly one compares before the other. -/
theorem C4_global_ranking_strict_total :
    (∀ (gs : GlobalState) (pre : Str) (l r : SimilarMethod),
      globalRankLt gs pre l r = specGlobalRankLt gs pre l r) ∧
    (∀ (gs : GlobalState) (pre : Str) (l r : SimilarMethod),
      l.method ≠ r.method ∨ l.depth ≠ r.depth →
      (globalRankLt gs pre l r = true ∧ globalRankLt gs pre r l = false) ∨
        (globalRankLt gs pre l r = false ∧ globalRankLt gs pre r l = true)) :=
  ⟨globalRankLt_eq_spec, globalRankLt_exactly_one⟩

/-- Claim C4 (witness): the comparator applied in `exGS` with prefix
`foo` to the `foo_bar` candidate (method 5) and the `foo` candidate
(method 3), both at depth 0: they agree with the spec comparator and
exactly one precedes the other. -/
theorem C4_global_ranking_strict_total_witness :
    globalRankLt exGS "foo".data { depth := 0, receiver := 1, method := 5 }
        { depth := 0, receiver := 1, method := 3 } =
      specGlobalRankLt exGS "foo".data { depth := 0, receiver := 1, method := 5 }
        { depth := 0, receiver := 1, method := 3 } ∧
    ((globalRankLt exGS "foo".data { depth := 0, receiver := 1, method := 5 }
          { depth := 0, receiver := 1, method := 3 } = true ∧
        globalRankLt exGS "foo".data { depth := 0, receiver := 1, method := 3 }
          { depth := 0, receiver := 1, method := 5 } = false) ∨
      (globalRankLt exGS "foo".data { depth := 0, receiver := 1, method := 5 }
          { depth := 0, receiver := 1, method := 3 } = false ∧
        globalRankLt exGS "foo".data { depth := 0, receiver := 1, method := 3 }
          { depth := 0, receiver := 1, method := 5 } = true)) :=
  ⟨C4_global_ranking_strict_total.1 exGS "foo".data _ _,
    C4_global_ranking_strict_total.2 exGS "foo".data _ _ (Or.inl (by decide))⟩

/-- Claim C5: during deduplication, an entry whose name is an
internally-generated rename-mangled identifier is skipped entirely
(contributes nothing to the output, regardless of its candidates' depths
or prefix match); every other (non-empty) entry contributes exactly one
candidate — the head of its list after the per-name sort by depth
ascending then method identity ascending, which is a minimum-depth
candidate of the list. -/
theorem C5_dedup_skips_mangled_keeps_min_depth :
    (∀ (m : SimilarMethodsByName) (n : Name) (cs : List SimilarMethod),
      isMangleRename n = true →
      dedupCandidates (sortEachName ((n, cs) :: m)) = dedupCandidates (sortEachName m)) ∧
    (∀ (m : SimilarMethodsByName) (n : Name) (cs : List SimilarMethod),
      isMangleRename n = false → cs ≠ [] →
      ∃ c rest, sortBy perNameLe cs = c :: rest ∧
        dedupCandidates (sortEachName ((n, cs) :: m)) =
          c :: dedupCandidates (sortEachName m) ∧
        ∀ c' ∈ cs, c.depth ≤ c'.depth) := by
  constructor
  · intro m n cs hmr
    simp [sortEachName, dedupCandidates, List.filterMap_cons, hmr]
  · intro m n cs hmr hne
    cases hs : sortBy perNameLe cs with
    | nil => exact absurd hs (sortBy_ne_nil hne)
    | cons c rest =>
      refine ⟨c, rest, rfl, ?_, ?_⟩
      · simp [sortEachName, dedupCandidates, List.filterMap_cons, hmr, hs]
      · intro c' hc'
        have hle := sortBy_head_le perNameLe_total perNameLe_trans hs c' hc'
        rw [perNameLe_iff] at hle
        rcases hle with h | ⟨h, _⟩
        · exact Nat.le_of_lt h
        · exact Nat.le_of_eq h

/-- Claim C5 (witness): a map holding a rename-mangled entry and a `foo`
entry with candidates at depths 2 and 1: the mangled entry is dropped and
the `foo` entry contributes exactly its depth-1 candidate. -/
theorem C5_dedup_skips_mangled_keeps_min_depth_witness :
    dedupCandidates (sortEachName
        ((mangleName, [{ depth := 0, receiver := 1, method := 3 }]) ::
          [(fooName, [{ depth := 2, receiver := 1, method := 3 },
                      { depth := 1, receiver := 1, method := 4 }])])) =
      dedupCandidates (sortEachName
        [(fooName, [{ depth := 2, receiver := 1, method := 3 },
                    { depth := 1, receiver := 1, method := 4 }])]) ∧
    ∃ c rest,
      sortBy perNameLe [{ depth := 2, receiver := 1, method := 3 },
          { depth := 1, receiver := 1, method := 4 }] = c :: rest ∧
      dedupCandidates (sortEachName
          ((fooName, [{ depth := 2, receiver := 1, method := 3 },
                      { depth := 1, receiver := 1, method := 4 }]) :: [])) =
        c :: dedupCandidates (sortEachName []) ∧
      ∀ c' ∈ [({ depth := 2, receiver := 1, method := 3 } : SimilarMethod),
          { depth := 1, receiver := 1, method := 4 }], c.depth ≤ c'.depth :=
  ⟨C5_dedup_skips_mangled_keeps_min_depth.1
      [(fooName, [{ depth := 2, receiver := 1, method := 3 },
                  { depth := 1, receiver := 1, method := 4 }])]
      mangleName [{ depth := 0, receiver := 1, method := 3 }] rfl,
    C5_dedup_skips_mangled_keeps_min_depth.2 [] fooName
      [{ depth := 2, receiver := 1, method := 3 },
       { depth := 1, receiver := 1, method := 4 }] rfl (by simp)⟩

/-- Claim C6: proxy wrappers are fully transparent to candidate
resolution — the type-algebra walker on a proxy type delegates to its
underlying type unchanged. -/
theorem C6_proxy_transparent (gs : GlobalState) (u : Ty) (pre : Str) :
    similarMethodsForReceiver gs (.proxy u) pre = similarMethodsForReceiver gs u pre := rfl

/-- Claim C7 (counterexample): at rank index 1,000,000 the sort key is the
seven-character decimal string "1000000" — the formatter widens past six
digits instead of saturating at "999999". -/
theorem C7_counterexample :
    (getCompletionItem exGS 3 1000000).sortText = "1000000".data ∧
    "1000000".data ≠ "999999".data ∧
    ((getCompletionItem exGS 3 1000000).sortText).length ≠ 6 := by
  refine ⟨rfl, by decide, by decide⟩

/-- Claim C7 (amended): the sort key is the decimal rendering of the rank
index zero-padded to a minimum width of six characters: indices up to
999,999 render as exactly six characters, and larger indices render in
their full (wider) decimal width rather than saturating or wrapping. -/
theorem C7_sortKey_zero_padded_min_width (gs : GlobalState) (what : SymbolRef)
    (sortIdx : Nat) :
    (getCompletionItem gs what sortIdx).sortText = sortTextFor sortIdx ∧
    (sortIdx ≤ 999999 → (sortTextFor sortIdx).length = 6) ∧
    (999999 < sortIdx → sortTextFor sortIdx = natDecimal sortIdx) :=
  ⟨rfl, fun h => sortTextFor_length_eq_six h, fun h => sortTextFor_wide h⟩

/-- Claim C7 (witness): the amended theorem at rank indices 42 and
1,000,000. -/
theorem C7_sortKey_zero_padded_min_width_witness :
    (sortTextFor 42).length = 6 ∧ sortTextFor 1000000 = natDecimal 1000000 :=
  ⟨(C7_sortKey_zero_padded_min_width exGS 3 42).2.1 (by decide),
    (C7_sortKey_zero_padded_min_width exGS 3 1000000).2.2 (by decide)⟩

/-- Claim C8: every candidate produced by the type-algebra walker has null
`receiverType` and `constr`; stamping a candidate whose `receiverType`
(resp. `constr`) is already non-null is the programming-error fault
"About to overwrite ..."; and under the dispatch-chain walk's call
pattern — stamping only the freshly produced map of each component before
merging — the fault branch is unreachable: the walk always returns `ok`,
with every candidate's `receiverType` set (exactly once, at its own
component's stamping step). -/
theorem C8_stamped_exactly_once :
    (∀ (gs : GlobalState) (t : Ty) (pre : Str) (n : Name) (cs : List SimilarMethod)
        (c : SimilarMethod),
      lookupName (similarMethodsForReceiver gs t pre) n = some cs → c ∈ cs →
      c.receiverType = none ∧ c.constr = none) ∧
    (∀ (mainReceiver : Ty) (mainConstr : Option Constraint) (c : SimilarMethod) (rt : Ty),
      c.receiverType = some rt →
      stampSimilarMethod mainReceiver mainConstr c =
        .error "About to overwrite non-null receiverType") ∧
    (∀ (mainReceiver : Ty) (mainConstr : Option Constraint) (c : SimilarMethod)
        (ct : Constraint),
      c.receiverType = none → c.constr = some ct →
      stampSimilarMethod mainReceiver mainConstr c =
        .error "About to overwrite non-null constr") ∧
    (∀ (gs : GlobalState) (dr : DispatchResult) (pre : Str),
      ∃ m, allSimilarMethods gs dr pre = .ok m ∧
        ∀ (n : Name) (cs : List SimilarMethod) (c : SimilarMethod),
          lookupName m n = some cs → c ∈ cs → c.receiverType.isSome = true) := by
  refine ⟨?_, ?_, ?_, ?_⟩
  · intro gs t pre n cs c h hc
    exact similarMethodsForReceiver_entries_null gs t pre (n, c)
      (mem_candEntries_of_lookup h hc)
  · intro mainReceiver mainConstr c rt h
    simp [stampSimilarMethod, h]
  · intro mainReceiver mainConstr c ct h1 h2
    simp [stampSimilarMethod, h1, h2]
  · intro gs dr pre
    obtain ⟨m, hm, hp⟩ := allSimilarMethods_ok gs dr pre
    exact ⟨m, hm, fun n cs c h hc => hp (n, c) (mem_candEntries_of_lookup h hc)⟩

/-- Claim C8 (witness): on `exGS`, the fresh `foo_bar` candidate has both
fields null; stamping an already-stamped candidate faults on either field;
and a concrete dispatch walk returns `ok` with all receiver types set. -/
theorem C8_stamped_exactly_once_witness :
    (({ depth := 0, receiver := 1, method := 5 } : SimilarMethod).receiverType = none ∧
      ({ depth := 0, receiver := 1, method := 5 } : SimilarMethod).constr = none) ∧
    stampSimilarMethod (.classType 1) none
        { depth := 0, receiver := 1, method := 5, receiverType := some (.classType 1),
          constr := none } =
      .error "About to overwrite non-null receiverType" ∧
    stampSimilarMethod (.classType 1) none
        { depth := 0, receiver := 1, method := 5, receiverType := none, constr := some 7 } =
      .error "About to overwrite non-null constr" ∧
    ∃ m, allSimilarMethods exGS (.mk (.classType 1) none .andKind none) "foo".data = .ok m ∧
      ∀ (n : Name) (cs : List SimilarMethod) (c : SimilarMethod),
        lookupName m n = some cs → c ∈ cs → c.receiverType.isSome = true :=
  ⟨C8_stamped_exactly_once.1 exGS (.classType 1) "foo".data fooBarName
      [{ depth := 0, receiver := 1, method := 5 }] { depth := 0, receiver := 1, method := 5 }
      rfl (by simp),
    C8_stamped_exactly_once.2.1 (.classType 1) none _ (.classType 1) rfl,
    C8_stamped_exactly_once.2.2.1 (.classType 1) none _ 7 rfl rfl,
    C8_stamped_exactly_once.2.2.2 exGS (.mk (.classType 1) none .andKind none) "foo".data⟩

/-- Claim C9: a receiver type that is not a class, applied, and- or proxy
type — the or-type case and the opaque/untyped catch-all — produces an
empty mapping, and an empty mapping flows through the ranking pipeline to
an empty candidate sequence (a normal outcome, not an error). -/
theorem C9_default_case_empty (gs : GlobalState) (l r : Ty) (pre : Str) :
    similarMethodsForReceiver gs (.orType l r) pre = [] ∧
    similarMethodsForReceiver gs .untyped pre = [] ∧
    rankAndBuild gs pre [] = [] :=
  ⟨rfl, rfl, rfl⟩

/-- Claim C10: with the autocomplete feature flag disabled, the completion
handler answers every request with an InvalidRequest error response — the
guard sits before query setup and candidate resolution, so no completion
list is ever produced in that case. -/
theorem C10_disabled_returns_invalid_request (gs : GlobalState) (q : QueryOutcome) :
    handleTextDocumentCompletion gs false q = .error .invalidRequest := rfl
